import Mathlib

/-!
Shallow embedding of the queue-generation core of the BadmintonQueue
repository (file src/badminton-app/src/utils/queueAlgorithm.js), together
with theorems settling the specification claims about it.

Modelling conventions:
* A persisted game record carries four player-id fields
  (team1_player1_id, ...).  JavaScript reads a missing field as undefined,
  and strict equality of undefined with a player id is false; we model the
  fields as `Option Nat`, with `none` standing for an absent field.
* The match objects pushed onto the in-construction queue by
  generateQueue are plain `{team1, team2}` objects without the id fields;
  reading `team1_player1_id` from them yields undefined.  `candToGame`
  embeds such an object as a record whose four fields are all `none`.
* JavaScript numbers occurring here are exact integers, modelled by
  `Nat`/`Int`; the score accumulator is an `Int` because the interaction
  term can be negative.
* The `queueCount` object is modelled as a function `Nat → Nat` from
  player ids to counts, initialised to 0 exactly as the source does.
-/

namespace BadmintonQueue

/-- A participant as consumed by the algorithm: its id and the lifetime
total_games_played counter read by scoring priority 5. -/
structure Player where
  id : Nat
  total_games_played : Nat
deriving Repr, DecidableEq

/-- A match record as read by the pairing and interaction scorers.  The
four fields are `Option Nat` because the objects the algorithm itself
appends to the in-construction queue do not carry these fields at all
(JavaScript yields undefined for them), while persisted games carry
concrete ids. -/
structure GameRec where
  team1_player1_id : Option Nat
  team1_player2_id : Option Nat
  team2_player1_id : Option Nat
  team2_player2_id : Option Nat
deriving Repr, DecidableEq

/-- Result record of getPlayerPairingHistory. -/
structure PairingHistory where
  teammates : Nat
  opponents : Nat
deriving Repr, DecidableEq

/-- Embedding of getPlayerPairingHistory: scans every game, classifying
it as a teammate game, an opponent game, or neither, with the teammate
test taking priority exactly as the else-if chain in the source does. -/
def getPlayerPairingHistory (p1 p2 : Nat) : List GameRec → PairingHistory
  | [] => ⟨0, 0⟩
  | game :: rest =>
    let acc := getPlayerPairingHistory p1 p2 rest
    let p1InTeam1 := game.team1_player1_id == some p1 || game.team1_player2_id == some p1
    let p1InTeam2 := game.team2_player1_id == some p1 || game.team2_player2_id == some p1
    let p2InTeam1 := game.team1_player1_id == some p2 || game.team1_player2_id == some p2
    let p2InTeam2 := game.team2_player1_id == some p2 || game.team2_player2_id == some p2
    if (p1InTeam1 && p2InTeam1) || (p1InTeam2 && p2InTeam2) then
      ⟨acc.teammates + 1, acc.opponents⟩
    else if (p1InTeam1 && p2InTeam2) || (p1InTeam2 && p2InTeam1) then
      ⟨acc.teammates, acc.opponents + 1⟩
    else
      acc

/-- Whether a player id appears anywhere in a game record, the test used
by getPlayerInteractionScore. -/
def isInGame (p : Nat) (game : GameRec) : Bool :=
  game.team1_player1_id == some p || game.team1_player2_id == some p ||
  game.team2_player1_id == some p || game.team2_player2_id == some p

/-- Embedding of getPlayerInteractionScore.  The source slices the last
ten games but computes the distance of each sliced element from
`recentGames.length - idx` with `idx` the index inside the slice, which
is faithfully reproduced here. -/
def getPlayerInteractionScore (p1 p2 : Nat) (recentGames : List GameRec) : Int :=
  let maxGamesToCheck : Nat := 10
  let sliced := recentGames.drop (recentGames.length - maxGamesToCheck)
  (sliced.enum.map (fun pair =>
    let idx := pair.1
    let game := pair.2
    let distance : Int := (recentGames.length : Int) - (idx : Int)
    if isInGame p1 game && isInGame p2 game then
      ((maxGamesToCheck : Int) - distance + 1) * 2
    else 0)).sum

/-- A candidate match: one specific 2/2 split of four players, exactly the
shape of the bestMatch objects the source builds (two arrays of two). -/
structure Candidate where
  team1 : Player × Player
  team2 : Player × Player
deriving Repr, DecidableEq

/-- The list view of one team of a candidate (the source represents a
team as an array of exactly two players). -/
def teamList (t : Player × Player) : List Player := [t.1, t.2]

/-- The allPlayersInMatch array of the source, in its spread order. -/
def allPlayersInMatch (c : Candidate) : List Player :=
  [c.team1.1, c.team1.2, c.team2.1, c.team2.2]

/-- Reading the persisted-game fields from an in-construction queue
entry: the object has no such fields, so every read yields undefined,
modelled as a record whose four fields are `none`. -/
def candToGame (_c : Candidate) : GameRec := ⟨none, none, none, none⟩

/-- Minimum of a list of naturals, used to model Math.min over the values
of the queueCount object; only applied to nonempty lists (Math.min of no
arguments would be Infinity, never reached here). -/
def listMin : List Nat → Nat
  | [] => 0
  | [x] => x
  | x :: y :: xs => min x (listMin (y :: xs))

/-- Maximum of a list of naturals, modelling Math.max; only applied to
nonempty lists. -/
def listMax : List Nat → Nat
  | [] => 0
  | [x] => x
  | x :: y :: xs => max x (listMax (y :: xs))

/-- The lexicographically ordered 4-element combinations of a list, in
exactly the order the source's four nested index loops visit them. -/
def kcomb : Nat → List Player → List (List Player)
  | 0, _ => [[]]
  | _ + 1, [] => []
  | k + 1, x :: xs => (kcomb k xs).map (fun t => x :: t) ++ kcomb (k + 1) xs

/-- The three team splits the source builds for a group of four players,
in source order; a group of any other size yields no splits (unreachable,
since groups always have four elements). -/
def splitsOf : List Player → List Candidate
  | [a, b, c, d] =>
    [⟨(a, b), (c, d)⟩, ⟨(a, c), (b, d)⟩, ⟨(a, d), (b, c)⟩]
  | _ => []

/-- The teammate-repeat component of the score: 5000 per prior teammate
pairing for each of the two team pairs. -/
def teammateRepeatScore (univ : List GameRec) (c : Candidate) : Int :=
  ((getPlayerPairingHistory c.team1.1.id c.team1.2.id univ).teammates : Int) * 5000 +
  ((getPlayerPairingHistory c.team2.1.id c.team2.2.id univ).teammates : Int) * 5000

/-- The opponent-repeat component of the score: 3000 per prior opposition
for each of the four cross-team pairs. -/
def opponentRepeatScore (univ : List GameRec) (c : Candidate) : Int :=
  ((getPlayerPairingHistory c.team1.1.id c.team2.1.id univ).opponents : Int) * 3000 +
  ((getPlayerPairingHistory c.team1.1.id c.team2.2.id univ).opponents : Int) * 3000 +
  ((getPlayerPairingHistory c.team1.2.id c.team2.1.id univ).opponents : Int) * 3000 +
  ((getPlayerPairingHistory c.team1.2.id c.team2.2.id univ).opponents : Int) * 3000

/-- The recency component of the score: the interaction score over all
six unordered pairs of the four players, each weighted by 10. -/
def interactionScoreSum (univ : List GameRec) (c : Candidate) : Int :=
  let ps := allPlayersInMatch c
  let ids := ps.map Player.id
  match ids with
  | [a, b, x, y] =>
    (getPlayerInteractionScore a b univ +
     getPlayerInteractionScore a x univ +
     getPlayerInteractionScore a y univ +
     getPlayerInteractionScore b x univ +
     getPlayerInteractionScore b y univ +
     getPlayerInteractionScore x y univ) * 10
  | _ => 0

/-- Composite score of a candidate exactly as accumulated by the source:
super-priority for minimum-count players, usage gap, total queued usage,
teammate and opponent repeat penalties, lifetime-load penalty, and the
recency interaction penalty. -/
def scoreCandidate (univ : List GameRec) (queueCount : Nat → Nat)
    (currentMinCount : Nat) (c : Candidate) : Int :=
  let ps := allPlayersInMatch c
  let playersWithMinInMatch := (ps.filter (fun p => queueCount p.id == currentMinCount)).length
  let playerCounts := ps.map (fun p => queueCount p.id)
  let groupGap := listMax playerCounts - listMin playerCounts
  let totalQueueGames := playerCounts.sum
  let totalGamesPlayed := (ps.map Player.total_games_played).sum
  let totalScore : Int :=
    (0 : Int) - (playersWithMinInMatch : Int) * 1000000 +
      (groupGap : Int) * 100000 +
      (totalQueueGames : Int) * 10000 +
      teammateRepeatScore univ c +
      opponentRepeatScore univ c +
      (totalGamesPlayed : Int) * 100 +
      interactionScoreSum univ c
  totalScore

/-- The number of players of the active list currently holding the
minimum queue count (the length of playersWithMinCount in the source). -/
def nMinPlayers (availablePlayers : List Player) (queueCount : Nat → Nat)
    (currentMinCount : Nat) : Nat :=
  (availablePlayers.filter (fun p => queueCount p.id == currentMinCount)).length

/-- The groups of four surviving the hard fairness pre-filter: a group is
skipped exactly when at least four players hold the minimum count and the
group contains fewer than three of them. -/
def filteredGroups (availablePlayers : List Player) (queueCount : Nat → Nat)
    (currentMinCount : Nat) : List (List Player) :=
  (kcomb 4 availablePlayers).filter (fun g =>
    !(decide (4 ≤ nMinPlayers availablePlayers queueCount currentMinCount) &&
      decide ((g.filter (fun p => queueCount p.id == currentMinCount)).length < 3)))

/-- All candidates scored in one round, in enumeration order: surviving
groups, each expanded into its three team splits. -/
def roundCandidates (availablePlayers : List Player) (queueCount : Nat → Nat)
    (currentMinCount : Nat) : List Candidate :=
  (filteredGroups availablePlayers queueCount currentMinCount).flatMap splitsOf

/-- The strict-improvement fold of the source: bestScore starts at
Infinity, so the first candidate always becomes the best, and a later
candidate replaces it only on a strictly smaller score. -/
def pickBestAux (score : Candidate → Int) (best : Candidate) : List Candidate → Candidate
  | [] => best
  | c :: cs =>
    if score c < score best then pickBestAux score c cs
    else pickBestAux score best cs

/-- The Math.min of the queue counts of all available players, computed
once per round as the source does. -/
def currentMin (availablePlayers : List Player) (queueCount : Nat → Nat) : Nat :=
  listMin (availablePlayers.map (fun p => queueCount p.id))

/-- One round of the loop body: compute the current minimum count, build
and filter the candidates, and select the strictly-best-scoring one;
`none` models the bestMatch variable remaining null. -/
def runRound (availablePlayers : List Player) (univ : List GameRec)
    (queueCount : Nat → Nat) : Option Candidate :=
  match roundCandidates availablePlayers queueCount (currentMin availablePlayers queueCount) with
  | [] => none
  | c :: cs =>
    some (pickBestAux
      (scoreCandidate univ queueCount (currentMin availablePlayers queueCount)) c cs)

/-- Incrementing the queue counts of the four players of a committed
match, one increment per occurrence, as the forEach in the source does. -/
def bump (queueCount : Nat → Nat) (c : Candidate) : Nat → Nat :=
  (allPlayersInMatch c).foldl
    (fun f p => fun x => if x = p.id then f x + 1 else f x) queueCount

/-- The round loop of generateQueue: at most `fuel` further rounds, each
scoring against the historical and queued games plus the entries already
committed to the new queue (read through their absent id fields), and
stopping early if no candidate is selected.  Returns the built queue and
the final counts. -/
def generateQueueAux (availablePlayers : List Player) (baseGames : List GameRec) :
    Nat → List Candidate → (Nat → Nat) → List Candidate × (Nat → Nat)
  | 0, newQueue, queueCount => (newQueue, queueCount)
  | fuel + 1, newQueue, queueCount =>
    match runRound availablePlayers (baseGames ++ newQueue.map candToGame) queueCount with
    | none => (newQueue, queueCount)
    | some best =>
      generateQueueAux availablePlayers baseGames fuel (newQueue ++ [best]) (bump queueCount best)

/-- Embedding of generateQueue: empty output below four players,
otherwise up to three rounds starting from all-zero queue counts. -/
def generateQueue (availablePlayers : List Player) (allGames queuedGames : List GameRec) :
    List Candidate :=
  if availablePlayers.length < 4 then []
  else (generateQueueAux availablePlayers (allGames ++ queuedGames) 3 [] (fun _ => 0)).1

/-- The number of times a player id appears across the candidates of a
queue; equals the final queueCount value of that id when counting starts
from zero. -/
def usageOf (queue : List Candidate) (pid : Nat) : Nat :=
  (queue.map (fun c => ((allPlayersInMatch c).map Player.id).count pid)).sum

/-! Specification-side definitions, used to state the claims that compare
the code with the specification text. -/

/-- A player id appears as a member of team 1 of a game. -/
def onTeam1 (p : Nat) (g : GameRec) : Bool :=
  g.team1_player1_id == some p || g.team1_player2_id == some p

/-- A player id appears as a member of team 2 of a game. -/
def onTeam2 (p : Nat) (g : GameRec) : Bool :=
  g.team2_player1_id == some p || g.team2_player2_id == some p

/-- Specification predicate: p1 and p2 appear on the same team of g. -/
def areTeammatesIn (p1 p2 : Nat) (g : GameRec) : Bool :=
  onTeam1 p1 g && onTeam1 p2 g || onTeam2 p1 g && onTeam2 p2 g

/-- Specification predicate: p1 and p2 appear on opposite teams of g. -/
def areOpponentsIn (p1 p2 : Nat) (g : GameRec) : Bool :=
  onTeam1 p1 g && onTeam2 p2 g || onTeam2 p1 g && onTeam1 p2 g

/-- A well-formed match record in the sense of the data-model invariant
of the specification: four concrete participant ids, pairwise distinct. -/
def WellFormedGame (g : GameRec) : Bool :=
  match g with
  | ⟨some a, some b, some c, some d⟩ => decide ([a, b, c, d].Nodup)
  | _ => false

/-- The interaction score exactly as the specification words it: over the
last ten matches, a match at distance d from the end (d = 1 for the most
recent) in which both players appear contributes (10 - d + 1) * 2, and
older matches contribute nothing. -/
def specInteractionScore (p1 p2 : Nat) (recentGames : List GameRec) : Int :=
  (recentGames.enum.map (fun pair =>
    let d : Int := (recentGames.length : Int) - (pair.1 : Int)
    if decide (d ≤ 10) && isInGame p1 pair.2 && isInGame p2 pair.2 then
      (10 - d + 1) * 2
    else 0)).sum

/-! Concrete inputs used by counterexamples and witnesses. -/

/-- Four players with distinct ids, all data otherwise equal. -/
def fourEqualPlayers : List Player := [⟨1, 0⟩, ⟨2, 0⟩, ⟨3, 0⟩, ⟨4, 0⟩]

/-- The match the algorithm commits in every round when run on
fourEqualPlayers with no history. -/
def committedCandidate : Candidate := ⟨(⟨1, 0⟩, ⟨2, 0⟩), (⟨3, 0⟩, ⟨4, 0⟩)⟩

/-- A completed game containing players 1 and 2 (and 3 and 4). -/
def gameWithBoth : GameRec := ⟨some 1, some 2, some 3, some 4⟩

/-- A completed game containing neither player 1 nor player 2. -/
def gameWithNeither : GameRec := ⟨some 7, some 8, some 9, some 5⟩

/-- Eleven chronologically ordered games whose only game containing both
players 1 and 2 is the most recent one. -/
def elevenGames : List GameRec := List.replicate 10 gameWithNeither ++ [gameWithBoth]

/-! Theorems. -/

/-- C7 counterexample: calling getPlayerPairingHistory with the same id
twice on a single game containing that player returns teammate count 1,
not the all-zero record the claim states. -/
theorem selfPairingNotZero :
    getPlayerPairingHistory 1 1 [gameWithBoth] ≠ ⟨0, 0⟩ ∧
    getPlayerPairingHistory 1 1 [gameWithBoth] = ⟨1, 0⟩ := by
  decide

/-- C7 amended: for every id p and game list, getPlayerPairingHistory
p p games returns opponents = 0 but teammates equal to the number of
games in which p appears on either team, rather than zero. -/
theorem selfPairingCounts (p : Nat) (games : List GameRec) :
    getPlayerPairingHistory p p games = ⟨games.countP (fun g => isInGame p g), 0⟩ := by
  induction games with
  | nil => rfl
  | cons g gs ih =>
    cases hb1 : g.team1_player1_id == some p <;>
    cases hb2 : g.team1_player2_id == some p <;>
    cases hb3 : g.team2_player1_id == some p <;>
    cases hb4 : g.team2_player2_id == some p <;>
      simp [getPlayerPairingHistory, isInGame, List.countP_cons, hb1, hb2, hb3, hb4, ih]

/-- C2: at the failing input of eleven games whose most recent game
contains both players, the code returns 18 while the specification's
windowed formula yields 20; the slice index is measured against the full
list length rather than the window. -/
theorem interactionScoreDiverges :
    getPlayerInteractionScore 1 2 elevenGames = 18 ∧
    specInteractionScore 1 2 elevenGames = 20 := by
  decide

/-- C3: the queue built for four equal players with no history commits
the identical split three times, and the teammate and opponent repeat
penalties computed in round two against the round-one committed match
are zero, because the committed entry lacks the id fields the pairing
scan reads; the claim's strictly positive penalty never materialises. -/
theorem sameInvocationRepeatPenaltyZero :
    generateQueue fourEqualPlayers [] [] =
      [committedCandidate, committedCandidate, committedCandidate] ∧
    teammateRepeatScore [candToGame committedCandidate] committedCandidate = 0 ∧
    opponentRepeatScore [candToGame committedCandidate] committedCandidate = 0 := by
  decide

/-- C1 counterexample: for four active participants with distinct ids,
empty match history and empty queued list, generateQueue returns a queue
of length 3, not 1; round exhaustion never triggers. -/
theorem fourPlayerQueueLengthThree :
    (generateQueue fourEqualPlayers [] []).length = 3 ∧
    (generateQueue fourEqualPlayers [] []).length ≠ 1 := by
  decide

/-- Unfolding of the pairing scan over one game, phrased with the
specification-side team predicates, which coincide syntactically with
the conditions of the source's else-if chain. -/
lemma pairing_cons (p1 p2 : Nat) (g : GameRec) (gs : List GameRec) :
    getPlayerPairingHistory p1 p2 (g :: gs) =
      if areTeammatesIn p1 p2 g then
        ⟨(getPlayerPairingHistory p1 p2 gs).teammates + 1,
         (getPlayerPairingHistory p1 p2 gs).opponents⟩
      else if areOpponentsIn p1 p2 g then
        ⟨(getPlayerPairingHistory p1 p2 gs).teammates,
         (getPlayerPairingHistory p1 p2 gs).opponents + 1⟩
      else getPlayerPairingHistory p1 p2 gs := by
  rfl

/-- The teammate count of the pairing scan equals the number of games in
which the two players appear on the same team, unconditionally. -/
lemma teammates_eq_countP (p1 p2 : Nat) (games : List GameRec) :
    (getPlayerPairingHistory p1 p2 games).teammates =
      games.countP (areTeammatesIn p1 p2) := by
  induction games with
  | nil => rfl
  | cons g gs ih =>
    rw [pairing_cons]
    by_cases h1 : areTeammatesIn p1 p2 g = true
    · simp [h1, List.countP_cons, ih]
    · by_cases h2 : areOpponentsIn p1 p2 g = true <;>
        simp [h1, h2, List.countP_cons, ih]

/-- For a well-formed game and distinct players, the teammate and
opponent relations cannot hold simultaneously. -/
lemma teammates_opponents_exclusive (p1 p2 : Nat) (g : GameRec)
    (_hne : p1 ≠ p2) (hwf : WellFormedGame g = true) :
    ¬(areTeammatesIn p1 p2 g = true ∧ areOpponentsIn p1 p2 g = true) := by
  rcases g with ⟨o1, o2, o3, o4⟩
  cases o1 <;> cases o2 <;> cases o3 <;> cases o4 <;>
    simp [WellFormedGame] at hwf
  rename_i a b c d
  simp only [areTeammatesIn, areOpponentsIn, onTeam1, onTeam2,
    Bool.or_eq_true, Bool.and_eq_true, beq_iff_eq, Option.some.injEq]
  omega

/-- The opponent count of the pairing scan equals the number of games in
which the two players appear on opposite teams, for distinct players and
well-formed games. -/
lemma opponents_eq_countP (p1 p2 : Nat) (games : List GameRec)
    (hne : p1 ≠ p2) (hwf : ∀ g ∈ games, WellFormedGame g = true) :
    (getPlayerPairingHistory p1 p2 games).opponents =
      games.countP (areOpponentsIn p1 p2) := by
  induction games with
  | nil => rfl
  | cons g gs ih =>
    have hg : WellFormedGame g = true := hwf g (List.mem_cons_self g gs)
    have hrest : ∀ x ∈ gs, WellFormedGame x = true :=
      fun x hx => hwf x (List.mem_cons_of_mem _ hx)
    have hex := teammates_opponents_exclusive p1 p2 g hne hg
    rw [pairing_cons]
    by_cases h1 : areTeammatesIn p1 p2 g = true
    · have h2 : ¬(areOpponentsIn p1 p2 g = true) := fun h => hex ⟨h1, h⟩
      simp [h1, h2, List.countP_cons, ih hrest]
    · by_cases h2 : areOpponentsIn p1 p2 g = true <;>
        simp [h1, h2, List.countP_cons, ih hrest]

/-- A game from which either player is absent satisfies neither team
predicate. -/
lemma absent_contributes_neither (p1 p2 : Nat) (g : GameRec)
    (h : isInGame p1 g = false ∨ isInGame p2 g = false) :
    areTeammatesIn p1 p2 g = false ∧ areOpponentsIn p1 p2 g = false := by
  have hsplit : ∀ q : Nat, isInGame q g = (onTeam1 q g || onTeam2 q g) := by
    intro q
    simp [isInGame, onTeam1, onTeam2, Bool.or_assoc]
  rw [hsplit, hsplit] at h
  unfold areTeammatesIn areOpponentsIn
  cases h11 : onTeam1 p1 g <;> cases h12 : onTeam2 p1 g <;>
    cases h21 : onTeam1 p2 g <;> cases h22 : onTeam2 p2 g <;>
      simp_all

/-- C6: for distinct players and well-formed match records, the pairing
history returns exactly the number of same-team games as teammates and
the number of opposite-team games as opponents; no game contributes to
both counts, and a game from which either player is absent contributes
to neither. -/
theorem pairingHistoryCharacterisation (p1 p2 : Nat) (games : List GameRec)
    (hne : p1 ≠ p2) (hwf : ∀ g ∈ games, WellFormedGame g = true) :
    (getPlayerPairingHistory p1 p2 games).teammates =
      games.countP (areTeammatesIn p1 p2) ∧
    (getPlayerPairingHistory p1 p2 games).opponents =
      games.countP (areOpponentsIn p1 p2) ∧
    (∀ g ∈ games, ¬(areTeammatesIn p1 p2 g = true ∧ areOpponentsIn p1 p2 g = true)) ∧
    (∀ g ∈ games, (isInGame p1 g = false ∨ isInGame p2 g = false) →
      areTeammatesIn p1 p2 g = false ∧ areOpponentsIn p1 p2 g = false) := by
  refine ⟨teammates_eq_countP p1 p2 games, opponents_eq_countP p1 p2 games hne hwf, ?_, ?_⟩
  · exact fun g hg => teammates_opponents_exclusive p1 p2 g hne (hwf g hg)
  · exact fun g _ h => absent_contributes_neither p1 p2 g h

/-- C6 witness: the characterisation applied to players 1 and 2 over a
concrete two-game well-formed history. -/
theorem pairingHistoryCharacterisationWitness :
    (getPlayerPairingHistory 1 2 [gameWithBoth, gameWithNeither]).teammates =
      [gameWithBoth, gameWithNeither].countP (areTeammatesIn 1 2) ∧
    (getPlayerPairingHistory 1 2 [gameWithBoth, gameWithNeither]).opponents =
      [gameWithBoth, gameWithNeither].countP (areOpponentsIn 1 2) := by
  have h := pairingHistoryCharacterisation 1 2 [gameWithBoth, gameWithNeither]
    (by decide) (by decide)
  exact ⟨h.1, h.2.1⟩

/-! Structural lemmas about the candidate enumeration and selection. -/

/-- Membership in the combination enumeration is exactly being a
sublist of the given length. -/
lemma mem_kcomb : ∀ (l : List Player) (k : Nat) (t : List Player),
    t ∈ kcomb k l ↔ t.Sublist l ∧ t.length = k := by
  intro l
  induction l with
  | nil =>
    intro k t
    cases k with
    | zero =>
      simp only [kcomb, List.mem_singleton]
      constructor
      · rintro rfl
        exact ⟨List.Sublist.refl _, rfl⟩
      · rintro ⟨hs, _⟩
        exact List.sublist_nil.mp hs
    | succ k =>
      simp only [kcomb, List.not_mem_nil, false_iff, not_and]
      intro hs
      have := List.sublist_nil.mp hs
      subst this
      simp
  | cons x xs ih =>
    intro k t
    cases k with
    | zero =>
      simp only [kcomb, List.mem_singleton]
      constructor
      · rintro rfl
        exact ⟨List.nil_sublist _, rfl⟩
      · rintro ⟨_, hl⟩
        exact List.length_eq_zero.mp hl
    | succ k =>
      simp only [kcomb, List.mem_append, List.mem_map]
      constructor
      · rintro (⟨s, hs, rfl⟩ | ht)
        · obtain ⟨hsub, hlen⟩ := (ih k s).mp hs
          exact ⟨List.Sublist.cons₂ x hsub, by simp [hlen]⟩
        · obtain ⟨hsub, hlen⟩ := (ih (k + 1) t).mp ht
          exact ⟨hsub.cons x, hlen⟩
      · rintro ⟨hsub, hlen⟩
        rcases List.sublist_cons_iff.mp hsub with h | ⟨r, rfl, hr⟩
        · exact Or.inr ((ih (k + 1) t).mpr ⟨h, hlen⟩)
        · refine Or.inl ⟨r, (ih k r).mpr ⟨hr, ?_⟩, rfl⟩
          simpa using hlen

/-- A list of length four is an explicit four-element list. -/
lemma length_four_shape (g : List Player) (h : g.length = 4) :
    ∃ a b c d, g = [a, b, c, d] := by
  rcases g with _ | ⟨a, g⟩
  · simp at h
  rcases g with _ | ⟨b, g⟩
  · simp at h
  rcases g with _ | ⟨c, g⟩
  · simp at h
  rcases g with _ | ⟨d, g⟩
  · simp at h
  rcases g with _ | ⟨e, g⟩
  · exact ⟨a, b, c, d, rfl⟩
  · simp only [List.length_cons] at h
    omega

/-- The selection fold returns either its seed or a member of the list. -/
lemma pickBestAux_mem (score : Candidate → Int) :
    ∀ (l : List Candidate) (b : Candidate),
      pickBestAux score b l = b ∨ pickBestAux score b l ∈ l := by
  intro l
  induction l with
  | nil => intro b; exact Or.inl rfl
  | cons c cs ih =>
    intro b
    unfold pickBestAux
    by_cases h : score c < score b
    · rw [if_pos h]
      rcases ih c with h' | h'
      · refine Or.inr ?_
        rw [h']
        exact List.mem_cons_self c cs
      · exact Or.inr (List.mem_cons_of_mem c h')
    · rw [if_neg h]
      rcases ih b with h' | h'
      · exact Or.inl h'
      · exact Or.inr (List.mem_cons_of_mem c h')

/-- The selection fold returns a score at most that of its seed and of
every list member. -/
lemma pickBestAux_le (score : Candidate → Int) :
    ∀ (l : List Candidate) (b : Candidate),
      score (pickBestAux score b l) ≤ score b ∧
      ∀ d ∈ l, score (pickBestAux score b l) ≤ score d := by
  intro l
  induction l with
  | nil => intro b; exact ⟨le_refl _, by simp⟩
  | cons c cs ih =>
    intro b
    unfold pickBestAux
    by_cases h : score c < score b
    · rw [if_pos h]
      obtain ⟨h1, h2⟩ := ih c
      refine ⟨le_trans h1 (le_of_lt h), ?_⟩
      intro d hd
      rcases List.mem_cons.mp hd with rfl | hd'
      · exact h1
      · exact h2 d hd'
    · rw [if_neg h]
      obtain ⟨h1, h2⟩ := ih b
      refine ⟨h1, ?_⟩
      intro d hd
      rcases List.mem_cons.mp hd with rfl | hd'
      · exact le_trans h1 (not_lt.mp h)
      · exact h2 d hd'

/-- A successful round returns a member of the surviving candidate list
whose score is minimal among all surviving candidates. -/
lemma runRound_spec (ps : List Player) (u : List GameRec) (qc : Nat → Nat)
    (c : Candidate) (h : runRound ps u qc = some c) :
    c ∈ roundCandidates ps qc (currentMin ps qc) ∧
    ∀ d ∈ roundCandidates ps qc (currentMin ps qc),
      scoreCandidate u qc (currentMin ps qc) c ≤
        scoreCandidate u qc (currentMin ps qc) d := by
  unfold runRound at h
  cases hrc : roundCandidates ps qc (currentMin ps qc) with
  | nil => rw [hrc] at h; cases h
  | cons c0 cs =>
    rw [hrc] at h
    injection h with h
    subst h
    constructor
    · rcases pickBestAux_mem _ cs c0 with h' | h'
      · rw [h']; exact List.mem_cons_self _ _
      · exact List.mem_cons_of_mem _ h'
    · intro d hd
      rcases List.mem_cons.mp hd with rfl | hd'
      · exact (pickBestAux_le _ cs d).1
      · exact (pickBestAux_le _ cs c0).2 d hd'

/-- Each of the three splits of a four-player group is a permutation of
the group. -/
lemma splitsOf_perm (a b c d : Player) :
    ∀ cand ∈ splitsOf [a, b, c, d], (allPlayersInMatch cand).Perm [a, b, c, d] := by
  intro cand hc
  have swapcd : List.Perm [d, c] [c, d] := List.Perm.swap c d []
  simp only [splitsOf, List.mem_cons, List.not_mem_nil, or_false] at hc
  rcases hc with rfl | rfl | rfl
  · exact List.Perm.refl _
  · exact List.Perm.cons a (List.Perm.swap b c [d])
  · refine List.Perm.cons a (List.Perm.trans (List.Perm.swap b d [c]) ?_)
    exact List.Perm.cons b swapcd

/-- Every candidate of a round comes from a four-element sublist of the
active players, of which its player array is a permutation. -/
lemma roundCandidates_shape (ps : List Player) (qc : Nat → Nat) (minC : Nat)
    (c : Candidate) (h : c ∈ roundCandidates ps qc minC) :
    ∃ g, g.Sublist ps ∧ g.length = 4 ∧ (allPlayersInMatch c).Perm g := by
  unfold roundCandidates at h
  rcases List.mem_flatMap.mp h with ⟨g, hg, hc⟩
  have hg' : g ∈ kcomb 4 ps := List.mem_of_mem_filter hg
  obtain ⟨hsub, hlen⟩ := (mem_kcomb ps 4 g).mp hg'
  obtain ⟨a, b, c', d, rfl⟩ := length_four_shape g hlen
  exact ⟨[a, b, c', d], hsub, rfl, splitsOf_perm a b c' d c hc⟩

/-- With distinct active-player ids, the player array of any candidate a
round commits has pairwise distinct ids. -/
lemma runRound_nodup (ps : List Player) (u : List GameRec) (qc : Nat → Nat)
    (hnd : (ps.map Player.id).Nodup) (c : Candidate)
    (h : runRound ps u qc = some c) :
    ((allPlayersInMatch c).map Player.id).Nodup := by
  obtain ⟨hmem, _⟩ := runRound_spec ps u qc c h
  obtain ⟨g, hsub, hlen, hperm⟩ := roundCandidates_shape _ _ _ _ hmem
  have h1 : (g.map Player.id).Nodup := hnd.sublist (hsub.map Player.id)
  exact ((hperm.map Player.id).nodup_iff).mpr h1

/-- Distinct-id propagation through the round loop: every candidate of
the produced queue has a distinct-id player array. -/
lemma generateQueueAux_good (ps : List Player) (base : List GameRec)
    (hnd : (ps.map Player.id).Nodup) :
    ∀ (fuel : Nat) (q : List Candidate) (qc : Nat → Nat),
      (∀ c ∈ q, ((allPlayersInMatch c).map Player.id).Nodup) →
      ∀ c ∈ (generateQueueAux ps base fuel q qc).1,
        ((allPlayersInMatch c).map Player.id).Nodup := by
  intro fuel
  induction fuel with
  | zero => intro q qc hq; exact hq
  | succ f ih =>
    intro q qc hq
    simp only [generateQueueAux]
    cases hr : runRound ps (base ++ q.map candToGame) qc with
    | none => exact hq
    | some best =>
      refine ih (q ++ [best]) (bump qc best) ?_
      intro c hc
      rcases List.mem_append.mp hc with h' | h'
      · exact hq c h'
      · rcases List.mem_singleton.mp h' with rfl
        exact runRound_nodup ps _ qc hnd c hr

/-- C9: with pairwise-distinct active-player ids, every candidate of the
returned queue has two teams of two whose four ids are pairwise distinct,
and the two teams are disjoint. -/
theorem queueCandidatesDistinct (ps : List Player) (ag qg : List GameRec)
    (hnd : (ps.map Player.id).Nodup) :
    ∀ c ∈ generateQueue ps ag qg,
      (teamList c.team1).length = 2 ∧ (teamList c.team2).length = 2 ∧
      ((teamList c.team1 ++ teamList c.team2).map Player.id).Nodup ∧
      (∀ p ∈ teamList c.team1, ∀ q ∈ teamList c.team2, p.id ≠ q.id) := by
  intro c hc
  have hgood : ((allPlayersInMatch c).map Player.id).Nodup := by
    unfold generateQueue at hc
    by_cases h4 : ps.length < 4
    · rw [if_pos h4] at hc; cases hc
    · rw [if_neg h4] at hc
      exact generateQueueAux_good ps (ag ++ qg) hnd 3 [] (fun _ => 0) (by simp) c hc
  have heq : teamList c.team1 ++ teamList c.team2 = allPlayersInMatch c := rfl
  refine ⟨rfl, rfl, heq ▸ hgood, ?_⟩
  intro p hp q hq
  rcases c with ⟨⟨a, b⟩, ⟨x, y⟩⟩
  simp only [teamList, List.mem_cons, List.not_mem_nil, or_false] at hp hq
  simp only [allPlayersInMatch, List.map_cons, List.map_nil, List.nodup_cons,
    List.mem_cons, List.not_mem_nil, List.nodup_nil, and_true, not_or] at hgood
  rcases hp with rfl | rfl <;> rcases hq with rfl | rfl <;> tauto

/-- C9 witness: the distinctness facts for the candidate committed on the
concrete four-player run. -/
theorem queueCandidatesDistinctWitness :
    committedCandidate ∈ generateQueue fourEqualPlayers [] [] ∧
    ((teamList committedCandidate.team1 ++ teamList committedCandidate.team2).map
      Player.id).Nodup := by
  refine ⟨by decide, ?_⟩
  exact (queueCandidatesDistinct fourEqualPlayers [] [] (by decide)
    committedCandidate (by decide)).2.2.1

/-- Each loop iteration extends the queue by at most one entry. -/
lemma generateQueueAux_length_le (ps : List Player) (base : List GameRec) :
    ∀ (fuel : Nat) (q : List Candidate) (qc : Nat → Nat),
      (generateQueueAux ps base fuel q qc).1.length ≤ q.length + fuel := by
  intro fuel
  induction fuel with
  | zero => intro q qc; simp [generateQueueAux]
  | succ f ih =>
    intro q qc
    simp only [generateQueueAux]
    cases hr : runRound ps (base ++ q.map candToGame) qc with
    | none =>
      show q.length ≤ q.length + (f + 1)
      omega
    | some best =>
      show (generateQueueAux ps base f (q ++ [best]) (bump qc best)).1.length ≤ q.length + (f + 1)
      have := ih (q ++ [best]) (bump qc best)
      simp only [List.length_append, List.length_singleton] at this
      omega

/-- C8: generateQueue is total and bounded: the queue never exceeds three
entries, and fewer than four active participants yield the empty queue. -/
theorem generateQueueTotalBounded (ps : List Player) (ag qg : List GameRec) :
    (generateQueue ps ag qg).length ≤ 3 ∧
    (ps.length < 4 → generateQueue ps ag qg = []) := by
  constructor
  · unfold generateQueue
    by_cases h4 : ps.length < 4
    · rw [if_pos h4]; simp
    · rw [if_neg h4]
      have := generateQueueAux_length_le ps (ag ++ qg) 3 [] (fun _ => 0)
      simpa using this
  · intro h4
    unfold generateQueue
    rw [if_pos h4]

/-- C8 witness: the bound and the empty-queue branch evaluated on a
three-player input. -/
theorem generateQueueTotalBoundedWitness :
    (generateQueue [⟨1, 0⟩, ⟨2, 0⟩, ⟨3, 0⟩] [] []).length ≤ 3 ∧
    generateQueue [⟨1, 0⟩, ⟨2, 0⟩, ⟨3, 0⟩] [] [] = [] :=
  ⟨(generateQueueTotalBounded [⟨1, 0⟩, ⟨2, 0⟩, ⟨3, 0⟩] [] []).1,
   (generateQueueTotalBounded [⟨1, 0⟩, ⟨2, 0⟩, ⟨3, 0⟩] [] []).2 (by decide)⟩

/-! Lemmas on list minima and maxima as computed by Math.min / Math.max. -/

/-- The minimum of a nonempty list is one of its elements. -/
lemma listMin_mem : ∀ (l : List Nat), l ≠ [] → listMin l ∈ l := by
  intro l
  induction l with
  | nil => intro h; exact absurd rfl h
  | cons x xs ih =>
    intro _
    cases xs with
    | nil => simp [listMin]
    | cons y ys =>
      simp only [listMin]
      rcases min_cases x (listMin (y :: ys)) with ⟨heq, _⟩ | ⟨heq, _⟩
      · rw [heq]; exact List.mem_cons_self _ _
      · rw [heq]; exact List.mem_cons_of_mem _ (ih (by simp))

/-- The minimum of a list bounds each of its elements from below. -/
lemma listMin_le : ∀ (l : List Nat) (a : Nat), a ∈ l → listMin l ≤ a := by
  intro l
  induction l with
  | nil => intro a ha; cases ha
  | cons x xs ih =>
    intro a ha
    cases xs with
    | nil =>
      rcases List.mem_singleton.mp ha with rfl
      simp [listMin]
    | cons y ys =>
      simp only [listMin]
      rcases List.mem_cons.mp ha with rfl | ha'
      · exact min_le_left _ _
      · exact le_trans (min_le_right _ _) (ih a ha')

/-- The maximum of a nonempty list is one of its elements. -/
lemma listMax_mem : ∀ (l : List Nat), l ≠ [] → listMax l ∈ l := by
  intro l
  induction l with
  | nil => intro h; exact absurd rfl h
  | cons x xs ih =>
    intro _
    cases xs with
    | nil => simp [listMax]
    | cons y ys =>
      simp only [listMax]
      rcases max_cases x (listMax (y :: ys)) with ⟨heq, _⟩ | ⟨heq, _⟩
      · rw [heq]; exact List.mem_cons_self _ _
      · rw [heq]; exact List.mem_cons_of_mem _ (ih (by simp))

/-- Each element of a list is bounded by the list maximum. -/
lemma le_listMax : ∀ (l : List Nat) (a : Nat), a ∈ l → a ≤ listMax l := by
  intro l
  induction l with
  | nil => intro a ha; cases ha
  | cons x xs ih =>
    intro a ha
    cases xs with
    | nil =>
      rcases List.mem_singleton.mp ha with rfl
      simp [listMax]
    | cons y ys =>
      simp only [listMax]
      rcases List.mem_cons.mp ha with rfl | ha'
      · exact le_max_left _ _
      · exact le_trans (ih a ha') (le_max_right _ _)

/-! A round always selects a match when at least four players are
available: the pre-filter can never empty the candidate pool. -/

/-- Some group of four always survives the pre-filter: when at least four
players hold the minimum count, the first four of them form a surviving
group; otherwise the filter excludes nothing. -/
lemma exists_surviving_group (ps : List Player) (qc : Nat → Nat) (minC : Nat)
    (h4 : 4 ≤ ps.length) :
    ∃ g, g ∈ filteredGroups ps qc minC := by
  by_cases hmin : 4 ≤ nMinPlayers ps qc minC
  · refine ⟨(ps.filter (fun p => qc p.id == minC)).take 4, ?_⟩
    have htsub : ((ps.filter (fun p => qc p.id == minC)).take 4).Sublist ps :=
      List.Sublist.trans (List.take_sublist _ _) (List.filter_sublist _)
    have hfl : 4 ≤ (ps.filter (fun p => qc p.id == minC)).length := hmin
    have htlen : ((ps.filter (fun p => qc p.id == minC)).take 4).length = 4 := by
      rw [List.length_take]
      omega
    apply List.mem_filter.mpr
    refine ⟨(mem_kcomb ps 4 _).mpr ⟨htsub, htlen⟩, ?_⟩
    have hall : ∀ p ∈ (ps.filter (fun p => qc p.id == minC)).take 4,
        (qc p.id == minC) = true := by
      intro p hp
      have hp2 : p ∈ ps.filter (fun q => qc q.id == minC) := List.mem_of_mem_take hp
      have hp3 := (List.mem_filter.mp hp2).2
      exact hp3
    have hcount :
        (((ps.filter (fun p => qc p.id == minC)).take 4).filter
          (fun p => qc p.id == minC)).length = 4 := by
      rw [List.filter_eq_self.mpr hall, htlen]
    simp [hcount, hmin]
  · refine ⟨ps.take 4, ?_⟩
    apply List.mem_filter.mpr
    refine ⟨(mem_kcomb ps 4 _).mpr ⟨List.take_sublist _ _, ?_⟩, ?_⟩
    · rw [List.length_take]; omega
    · simp [hmin]

/-- The candidate pool of a round with at least four players is
nonempty. -/
lemma roundCandidates_ne_nil (ps : List Player) (qc : Nat → Nat) (minC : Nat)
    (h4 : 4 ≤ ps.length) :
    roundCandidates ps qc minC ≠ [] := by
  obtain ⟨g, hg⟩ := exists_surviving_group ps qc minC h4
  have hlen : g.length = 4 := ((mem_kcomb ps 4 g).mp (List.mem_of_mem_filter hg)).2
  obtain ⟨a, b, c, d, rfl⟩ := length_four_shape g hlen
  have hc : (⟨(a, b), (c, d)⟩ : Candidate) ∈ roundCandidates ps qc minC := by
    unfold roundCandidates
    exact List.mem_flatMap.mpr ⟨[a, b, c, d], hg, by simp [splitsOf]⟩
  exact List.ne_nil_of_mem hc

/-- A round with at least four players always selects a match. -/
lemma runRound_isSome (ps : List Player) (u : List GameRec) (qc : Nat → Nat)
    (h4 : 4 ≤ ps.length) :
    ∃ c, runRound ps u qc = some c := by
  unfold runRound
  cases hrc : roundCandidates ps qc (currentMin ps qc) with
  | nil => exact absurd hrc (roundCandidates_ne_nil _ _ _ h4)
  | cons c0 cs => exact ⟨_, rfl⟩

/-- With at least four players every loop iteration commits a match, so
the queue grows by exactly the fuel. -/
lemma generateQueueAux_length_full (ps : List Player) (base : List GameRec)
    (h4 : 4 ≤ ps.length) :
    ∀ (fuel : Nat) (q : List Candidate) (qc : Nat → Nat),
      (generateQueueAux ps base fuel q qc).1.length = q.length + fuel := by
  intro fuel
  induction fuel with
  | zero => intro q qc; rfl
  | succ f ih =>
    intro q qc
    simp only [generateQueueAux]
    obtain ⟨c, hc⟩ := runRound_isSome ps (base ++ q.map candToGame) qc h4
    rw [hc]
    show (generateQueueAux ps base f (q ++ [c]) (bump qc c)).1.length = q.length + (f + 1)
    rw [ih (q ++ [c]) (bump qc c)]
    simp only [List.length_append, List.length_singleton]
    omega

/-- The full-length fact shared by several theorems: four or more players
always produce a queue of exactly three matches. -/
lemma generateQueue_length_eq_three (ps : List Player) (ag qg : List GameRec)
    (h4 : 4 ≤ ps.length) :
    (generateQueue ps ag qg).length = 3 := by
  unfold generateQueue
  rw [if_neg (by omega)]
  rw [generateQueueAux_length_full ps (ag ++ qg) h4 3 [] (fun _ => 0)]
  rfl

/-- C10: with at least four active participants of pairwise-distinct
ids, generateQueue always returns a queue of the full length three: some
candidate survives every round, so the exhaustion branch is
unreachable. -/
theorem queueAlwaysFullLength (ps : List Player) (ag qg : List GameRec)
    (h4 : 4 ≤ ps.length) (_hnd : (ps.map Player.id).Nodup) :
    (generateQueue ps ag qg).length = 3 :=
  generateQueue_length_eq_three ps ag qg h4

/-- C10 witness: a five-player instance of the full-length theorem. -/
theorem queueAlwaysFullLengthWitness :
    (generateQueue [⟨1, 0⟩, ⟨2, 0⟩, ⟨3, 0⟩, ⟨4, 0⟩, ⟨5, 0⟩] [] []).length = 3 :=
  queueAlwaysFullLength [⟨1, 0⟩, ⟨2, 0⟩, ⟨3, 0⟩, ⟨4, 0⟩, ⟨5, 0⟩] [] []
    (by decide) (by decide)

/-- C1 amended: exactly four active participants with distinct ids,
empty match history and empty queued list produce a queue of length
exactly three, not one; round exhaustion never fires because the single
four-player group always survives the pre-filter. -/
theorem fourActiveQueueLengthThree (ps : List Player)
    (hlen : ps.length = 4) (_hnd : (ps.map Player.id).Nodup) :
    (generateQueue ps [] []).length = 3 :=
  generateQueue_length_eq_three ps [] [] (by omega)

/-- C1 amended witness: the four-player scenario evaluated concretely. -/
theorem fourActiveQueueLengthThreeWitness :
    (generateQueue fourEqualPlayers [] []).length = 3 :=
  fourActiveQueueLengthThree fourEqualPlayers (by decide) (by decide)

/-- C5: the hard fairness pre-filter behaves exactly as specified: when
four or more players hold the minimum count, every four-player group
with fewer than three minimum-count members is excluded before scoring
and the selected match always carries at least three minimum-count
players; when fewer than four players are at the minimum, the filter
excludes nothing. -/
theorem hardFairnessPrefilter (ps : List Player) (u : List GameRec) (qc : Nat → Nat) :
    (4 ≤ nMinPlayers ps qc (currentMin ps qc) →
      (∀ g ∈ kcomb 4 ps,
        (g.filter (fun p => qc p.id == currentMin ps qc)).length < 3 →
        g ∉ filteredGroups ps qc (currentMin ps qc)) ∧
      (∀ c, runRound ps u qc = some c →
        3 ≤ ((allPlayersInMatch c).filter
          (fun p => qc p.id == currentMin ps qc)).length)) ∧
    (nMinPlayers ps qc (currentMin ps qc) < 4 →
      filteredGroups ps qc (currentMin ps qc) = kcomb 4 ps) := by
  constructor
  · intro hmin
    constructor
    · intro g _ hcount hgmem
      have hpred := (List.mem_filter.mp hgmem).2
      have hnot : nMinPlayers ps qc (currentMin ps qc) < 4 ∨
          3 ≤ (g.filter (fun p => qc p.id == currentMin ps qc)).length := by
        simpa using hpred
      rcases hnot with h | h <;> omega
    · intro c hc
      obtain ⟨hmem, _⟩ := runRound_spec ps u qc c hc
      unfold roundCandidates at hmem
      rcases List.mem_flatMap.mp hmem with ⟨g, hg, hcg⟩
      have hpred := (List.mem_filter.mp hg).2
      have hglen : g.length = 4 :=
        ((mem_kcomb ps 4 g).mp (List.mem_of_mem_filter hg)).2
      obtain ⟨a, b, c', d, rfl⟩ := length_four_shape g hglen
      have hperm := splitsOf_perm a b c' d c hcg
      have hlenf :
          ((allPlayersInMatch c).filter (fun p => qc p.id == currentMin ps qc)).length =
          (([a, b, c', d]).filter (fun p => qc p.id == currentMin ps qc)).length :=
        (hperm.filter _).length_eq
      rw [hlenf]
      have hnot : nMinPlayers ps qc (currentMin ps qc) < 4 ∨
          3 ≤ (([a, b, c', d]).filter (fun p => qc p.id == currentMin ps qc)).length := by
        simpa using hpred
      rcases hnot with h | h <;> omega
  · intro hmin
    unfold filteredGroups
    apply List.filter_eq_self.mpr
    intro g _
    simp [hmin]

/-- C5 witness: on the concrete four-player zero-count round, four
players hold the minimum, and the selected match indeed carries at least
three minimum-count players. -/
theorem hardFairnessPrefilterWitness :
    3 ≤ ((allPlayersInMatch committedCandidate).filter
      (fun p => (fun _ => (0 : Nat)) p.id ==
        currentMin fourEqualPlayers (fun _ => (0 : Nat)))).length :=
  ((hardFairnessPrefilter fourEqualPlayers [] (fun _ => (0 : Nat))).1
    (by decide)).2 committedCandidate (by decide)

/-- The spread between the largest and smallest final queue-usage value
across the active players, computed from the returned queue. -/
def usageSpread (ps : List Player) (queue : List Candidate) : Nat :=
  listMax (ps.map (fun p => usageOf queue p.id)) -
    listMin (ps.map (fun p => usageOf queue p.id))

/-- Eight players whose lifetime totals steer the scorer into an unfair
schedule: player 1 is cheap to schedule, players 2 to 7 carry a mild
penalty, and player 8 carries a prohibitive one. -/
def skewedPlayers : List Player :=
  [⟨1, 0⟩, ⟨2, 2000⟩, ⟨3, 2000⟩, ⟨4, 2000⟩,
   ⟨5, 2000⟩, ⟨6, 2000⟩, ⟨7, 2000⟩, ⟨8, 1000000⟩]

/-! Toward the fairness-spread analysis: matches committed within the
invocation are invisible to the pairing and interaction scorers, because
their records carry no id fields. -/

/-- An absent field never equals a concrete id. -/
lemma none_beq_some (x : Nat) : ((none : Option Nat) == some x) = false := rfl

/-- No player appears in a queue-entry record. -/
lemma isInGame_candToGame (p : Nat) (c : Candidate) :
    isInGame p (candToGame c) = false := rfl

/-- The pairing scan over queue-entry records returns zero counts. -/
lemma pairing_vacuous (p1 p2 : Nat) : ∀ (q : List Candidate),
    getPlayerPairingHistory p1 p2 (q.map candToGame) = ⟨0, 0⟩ := by
  intro q
  induction q with
  | nil => rfl
  | cons c cs ih => exact ih

/-- The second component of an enumFrom entry is a member of the
underlying list. -/
lemma snd_mem_of_mem_enumFrom : ∀ (gs : List GameRec) (n : Nat) (pair : Nat × GameRec),
    pair ∈ List.enumFrom n gs → pair.2 ∈ gs := by
  intro gs
  induction gs with
  | nil => intro n pair h; cases h
  | cons g rest ih =>
    intro n pair h
    rw [List.enumFrom_cons] at h
    rcases List.mem_cons.mp h with rfl | h'
    · exact List.mem_cons_self _ _
    · exact List.mem_cons_of_mem _ (ih (n + 1) pair h')

/-- The interaction score over queue-entry records is zero. -/
lemma interaction_vacuous (p1 p2 : Nat) (q : List Candidate) :
    getPlayerInteractionScore p1 p2 (q.map candToGame) = 0 := by
  unfold getPlayerInteractionScore
  apply List.sum_eq_zero
  intro x hx
  rcases List.mem_map.mp hx with ⟨pair, hpair, rfl⟩
  have h2 : pair.2 ∈ (q.map candToGame).drop ((q.map candToGame).length - 10) := by
    rw [List.enum_eq_enumFrom] at hpair
    exact snd_mem_of_mem_enumFrom _ _ _ hpair
  have h3 : pair.2 ∈ q.map candToGame := List.mem_of_mem_drop h2
  rcases List.mem_map.mp h3 with ⟨c, _, hc⟩
  rw [← hc]
  simp [isInGame_candToGame]

/-- On a universe consisting solely of queue entries, the score of a
candidate with equal lifetime totals reduces to the three usage terms
plus a constant. -/
lemma score_vacuous (q : List Candidate) (qc : Nat → Nat) (minC : Nat) (t : Nat)
    (c : Candidate) (htgp : ∀ p ∈ allPlayersInMatch c, p.total_games_played = t) :
    scoreCandidate (q.map candToGame) qc minC c =
      (0 : Int) -
        (((allPlayersInMatch c).filter (fun p => qc p.id == minC)).length : Int) * 1000000 +
        ((listMax ((allPlayersInMatch c).map (fun p => qc p.id)) -
          listMin ((allPlayersInMatch c).map (fun p => qc p.id)) : Nat) : Int) * 100000 +
        ((((allPlayersInMatch c).map (fun p => qc p.id)).sum : Nat) : Int) * 10000 +
        ((4 * t : Nat) : Int) * 100 := by
  rcases c with ⟨⟨a, b⟩, ⟨u, v⟩⟩
  have ha : a.total_games_played = t := htgp a (by simp [allPlayersInMatch])
  have hb : b.total_games_played = t := htgp b (by simp [allPlayersInMatch])
  have hu : u.total_games_played = t := htgp u (by simp [allPlayersInMatch])
  have hv : v.total_games_played = t := htgp v (by simp [allPlayersInMatch])
  unfold scoreCandidate teammateRepeatScore opponentRepeatScore interactionScoreSum
  simp only [allPlayersInMatch, pairing_vacuous, interaction_vacuous,
    List.map_cons, List.map_nil, List.sum_cons, List.sum_nil, ha, hb, hu, hv]
  push_cast
  ring

/-- Bounding a list maximum by a pointwise bound. -/
lemma listMax_le : ∀ (l : List Nat) (k : Nat), (∀ a ∈ l, a ≤ k) → listMax l ≤ k := by
  intro l
  induction l with
  | nil => intro k _; exact Nat.zero_le k
  | cons x xs ih =>
    intro k h
    cases xs with
    | nil => exact h x (List.mem_singleton.mpr rfl)
    | cons y ys =>
      simp only [listMax]
      exact max_le (h x (List.mem_cons_self _ _))
        (ih k (fun a ha => h a (List.mem_cons_of_mem _ ha)))

/-- Bounding a list sum by length times a pointwise bound. -/
lemma listSum_le : ∀ (l : List Nat) (k : Nat), (∀ a ∈ l, a ≤ k) → l.sum ≤ l.length * k := by
  intro l
  induction l with
  | nil => intro k _; simp
  | cons x xs ih =>
    intro k h
    simp only [List.sum_cons, List.length_cons]
    have h1 := h x (List.mem_cons_self _ _)
    have h2 := ih k (fun a ha => h a (List.mem_cons_of_mem _ ha))
    calc x + xs.sum ≤ k + xs.length * k := Nat.add_le_add h1 h2
      _ = (xs.length + 1) * k := by ring

/-- The increment fold of the source adds to each id exactly its number
of occurrences in the folded player list. -/
lemma foldl_bump_eq : ∀ (l : List Player) (qc : Nat → Nat) (x : Nat),
    (l.foldl (fun f p => fun y => if y = p.id then f y + 1 else f y) qc) x =
      qc x + (l.map Player.id).count x := by
  intro l
  induction l with
  | nil => intro qc x; simp
  | cons p rest ih =>
    intro qc x
    simp only [List.foldl_cons, List.map_cons, List.count_cons]
    rw [ih]
    by_cases h : x = p.id <;> simp [h] <;> omega

/-- The bump of a committed match adds to each id exactly its number of
occurrences among the four committed players. -/
lemma bump_eq (qc : Nat → Nat) (c : Candidate) (x : Nat) :
    bump qc c x = qc x + ((allPlayersInMatch c).map Player.id).count x := by
  unfold bump
  exact foldl_bump_eq (allPlayersInMatch c) qc x

/-- Candidate players belong to the active list. -/
lemma roundCandidates_players_mem (ps : List Player) (qc : Nat → Nat) (minC : Nat)
    (c : Candidate) (h : c ∈ roundCandidates ps qc minC) :
    ∀ p ∈ allPlayersInMatch c, p ∈ ps := by
  obtain ⟨g, hsub, _, hperm⟩ := roundCandidates_shape ps qc minC c h
  intro p hp
  exact hsub.subset (hperm.subset hp)

/-- The number of minimum-count players of a candidate is bounded by four
and by the total number of minimum-count players. -/
lemma candidate_min_le (ps : List Player) (qc : Nat → Nat) (minC : Nat)
    (c : Candidate) (h : c ∈ roundCandidates ps qc minC) :
    ((allPlayersInMatch c).filter (fun p => qc p.id == minC)).length ≤ 4 ∧
    ((allPlayersInMatch c).filter (fun p => qc p.id == minC)).length ≤
      nMinPlayers ps qc minC := by
  obtain ⟨g, hsub, hlen, hperm⟩ := roundCandidates_shape ps qc minC c h
  constructor
  · calc ((allPlayersInMatch c).filter (fun p => qc p.id == minC)).length
        ≤ (allPlayersInMatch c).length := List.length_filter_le _ _
      _ = 4 := by rcases c with ⟨⟨a, b⟩, ⟨u, v⟩⟩; rfl
  · have h1 : ((allPlayersInMatch c).filter (fun p => qc p.id == minC)).length =
        (g.filter (fun p => qc p.id == minC)).length := (hperm.filter _).length_eq
    rw [h1]
    unfold nMinPlayers
    rw [← List.countP_eq_length_filter, ← List.countP_eq_length_filter]
    exact hsub.countP_le _

/-- Extension of a sublist to a longer sublist of prescribed length. -/
lemma sublist_extend : ∀ (l s : List Player) (k : Nat), s.Sublist l → s.length ≤ k →
    k ≤ l.length → ∃ g, s.Sublist g ∧ g.Sublist l ∧ g.length = k := by
  intro l
  induction l with
  | nil =>
    intro s k hs hk hkl
    have hk0 : k = 0 := by simpa using hkl
    subst hk0
    have hs0 : s = [] := List.sublist_nil.mp hs
    subst hs0
    exact ⟨[], List.Sublist.refl _, List.Sublist.refl _, rfl⟩
  | cons x xs ih =>
    intro s k hs hk hkl
    rcases List.sublist_cons_iff.mp hs with hs' | ⟨r, rfl, hr⟩
    · by_cases hkx : k ≤ xs.length
      · obtain ⟨g, h1, h2, h3⟩ := ih s k hs' hk hkx
        exact ⟨g, h1, h2.cons x, h3⟩
      · have hsl : s.length ≤ xs.length := hs'.length_le
        have hxl : k ≤ xs.length + 1 := by simpa using hkl
        obtain ⟨g, h1, h2, h3⟩ := ih s (k - 1) hs' (by omega) (by omega)
        refine ⟨x :: g, h1.cons x, List.Sublist.cons₂ x h2, ?_⟩
        simp only [List.length_cons, h3]
        omega
    · have hrk : r.length + 1 ≤ k := by simpa using hk
      have hxl : k ≤ xs.length + 1 := by simpa using hkl
      have hrl : r.length ≤ xs.length := hr.length_le
      obtain ⟨g, h1, h2, h3⟩ := ih r (k - 1) hr (by omega) (by omega)
      refine ⟨x :: g, List.Sublist.cons₂ x h1, List.Sublist.cons₂ x h2, ?_⟩
      simp only [List.length_cons, h3]
      omega

/-- Sufficient conditions for a group to survive the pre-filter. -/
lemma mem_filteredGroups_of (ps : List Player) (qc : Nat → Nat) (minC : Nat)
    (g : List Player) (hk : g ∈ kcomb 4 ps)
    (hcond : nMinPlayers ps qc minC < 4 ∨
      3 ≤ (g.filter (fun p => qc p.id == minC)).length) :
    g ∈ filteredGroups ps qc minC := by
  apply List.mem_filter.mpr
  exact ⟨hk, by simpa using hcond⟩

/-- Some surviving candidate attains min(4, nMin) minimum-count players:
the first four minimum-count players when at least four exist, otherwise
any four-player group containing all minimum-count players. -/
lemma exists_max_min_candidate (ps : List Player) (qc : Nat → Nat)
    (h4 : 4 ≤ ps.length) :
    ∃ cstar ∈ roundCandidates ps qc (currentMin ps qc),
      ((allPlayersInMatch cstar).filter
        (fun p => qc p.id == currentMin ps qc)).length =
      min 4 (nMinPlayers ps qc (currentMin ps qc)) := by
  have key : ∃ g ∈ kcomb 4 ps,
      (g.filter (fun p => qc p.id == currentMin ps qc)).length =
        min 4 (nMinPlayers ps qc (currentMin ps qc)) ∧
      g ∈ filteredGroups ps qc (currentMin ps qc) := by
    by_cases hm : 4 ≤ nMinPlayers ps qc (currentMin ps qc)
    · have hfl : 4 ≤ (ps.filter (fun p => qc p.id == currentMin ps qc)).length := hm
      have htlen :
          ((ps.filter (fun p => qc p.id == currentMin ps qc)).take 4).length = 4 := by
        rw [List.length_take]; omega
      have hsub :
          ((ps.filter (fun p => qc p.id == currentMin ps qc)).take 4).Sublist ps :=
        List.Sublist.trans (List.take_sublist _ _) (List.filter_sublist _)
      have hk : (ps.filter (fun p => qc p.id == currentMin ps qc)).take 4 ∈ kcomb 4 ps :=
        (mem_kcomb ps 4 _).mpr ⟨hsub, htlen⟩
      have hall : ∀ p ∈ (ps.filter (fun p => qc p.id == currentMin ps qc)).take 4,
          (qc p.id == currentMin ps qc) = true := by
        intro p hp
        have hp2 : p ∈ ps.filter (fun r => qc r.id == currentMin ps qc) :=
          List.mem_of_mem_take hp
        have hp3 := (List.mem_filter.mp hp2).2
        exact hp3
      have hcnt4 :
          (((ps.filter (fun p => qc p.id == currentMin ps qc)).take 4).filter
            (fun p => qc p.id == currentMin ps qc)).length = 4 := by
        rw [List.filter_eq_self.mpr hall, htlen]
      have hmin4 : min 4 (nMinPlayers ps qc (currentMin ps qc)) = 4 := by omega
      refine ⟨_, hk, ?_, mem_filteredGroups_of _ _ _ _ hk (Or.inr (by omega))⟩
      rw [hcnt4, hmin4]
    · have hs0 : (ps.filter (fun p => qc p.id == currentMin ps qc)).Sublist ps :=
        List.filter_sublist _
      have hs0len : (ps.filter (fun p => qc p.id == currentMin ps qc)).length =
          nMinPlayers ps qc (currentMin ps qc) := rfl
      obtain ⟨g, hsg, hgps, hglen⟩ :=
        sublist_extend ps (ps.filter (fun p => qc p.id == currentMin ps qc)) 4 hs0
          (by omega) h4
      have hk : g ∈ kcomb 4 ps := (mem_kcomb ps 4 g).mpr ⟨hgps, hglen⟩
      have hup : (g.filter (fun p => qc p.id == currentMin ps qc)).length ≤
          nMinPlayers ps qc (currentMin ps qc) := by
        unfold nMinPlayers
        rw [← List.countP_eq_length_filter, ← List.countP_eq_length_filter]
        exact hgps.countP_le _
      have hlow : nMinPlayers ps qc (currentMin ps qc) ≤
          (g.filter (fun p => qc p.id == currentMin ps qc)).length := by
        have hfull : ((ps.filter (fun p => qc p.id == currentMin ps qc)).filter
            (fun p => qc p.id == currentMin ps qc)).length =
            nMinPlayers ps qc (currentMin ps qc) := by
          rw [List.filter_eq_self.mpr (fun p hp => (List.mem_filter.mp hp).2)]
          rfl
        calc nMinPlayers ps qc (currentMin ps qc)
            = ((ps.filter (fun p => qc p.id == currentMin ps qc)).filter
                (fun p => qc p.id == currentMin ps qc)).length := hfull.symm
          _ ≤ (g.filter (fun p => qc p.id == currentMin ps qc)).length := by
              rw [← List.countP_eq_length_filter, ← List.countP_eq_length_filter]
              exact hsg.countP_le _
      refine ⟨g, hk, by omega, mem_filteredGroups_of _ _ _ _ hk (Or.inl (by omega))⟩
  obtain ⟨g, hk, hcnt, hfg⟩ := key
  have hglen : g.length = 4 := ((mem_kcomb ps 4 g).mp hk).2
  obtain ⟨a, b, c, d, rfl⟩ := length_four_shape g hglen
  refine ⟨⟨(a, b), (c, d)⟩, ?_, ?_⟩
  · unfold roundCandidates
    exact List.mem_flatMap.mpr ⟨[a, b, c, d], hfg, by simp [splitsOf]⟩
  · exact hcnt

/-- The current minimum bounds every player's count. -/
lemma currentMin_le (ps : List Player) (qc : Nat → Nat) (p : Player) (hp : p ∈ ps) :
    currentMin ps qc ≤ qc p.id :=
  listMin_le _ _ (List.mem_map_of_mem _ hp)

/-- The current minimum is attained by some player. -/
lemma currentMin_attained (ps : List Player) (qc : Nat → Nat) (hne : ps ≠ []) :
    ∃ p ∈ ps, currentMin ps qc = qc p.id := by
  have h := listMin_mem (ps.map fun p => qc p.id) (by simpa using hne)
  rcases List.mem_map.mp h with ⟨p, hp, heq⟩
  exact ⟨p, hp, heq.symm⟩

/-- Over a queue-only universe with equal lifetime totals and usage
counts at most 2, the selected candidate attains the maximal possible
number of minimum-count players: the million-weight term dominates the
usage terms. -/
lemma round_selects_max_min (ps : List Player) (q : List Candidate) (qc : Nat → Nat)
    (t : Nat) (cb : Candidate)
    (h4 : 4 ≤ ps.length)
    (htgp : ∀ p ∈ ps, p.total_games_played = t)
    (hbd : ∀ p ∈ ps, qc p.id ≤ 2)
    (hrun : runRound ps (q.map candToGame) qc = some cb) :
    ((allPlayersInMatch cb).filter
      (fun p => qc p.id == currentMin ps qc)).length =
      min 4 (nMinPlayers ps qc (currentMin ps qc)) := by
  obtain ⟨hmem, hminimal⟩ := runRound_spec ps _ qc cb hrun
  obtain ⟨cstar, hstar, hstarcnt⟩ := exists_max_min_candidate ps qc h4
  have hcb_le := candidate_min_le ps qc (currentMin ps qc) cb hmem
  have hs := hminimal cstar hstar
  have hmem_cb := roundCandidates_players_mem ps qc (currentMin ps qc) cb hmem
  have hmem_cs := roundCandidates_players_mem ps qc (currentMin ps qc) cstar hstar
  have htgp_cb : ∀ p ∈ allPlayersInMatch cb, p.total_games_played = t :=
    fun p hp => htgp p (hmem_cb p hp)
  have htgp_cs : ∀ p ∈ allPlayersInMatch cstar, p.total_games_played = t :=
    fun p hp => htgp p (hmem_cs p hp)
  rw [score_vacuous q qc (currentMin ps qc) t cb htgp_cb,
      score_vacuous q qc (currentMin ps qc) t cstar htgp_cs] at hs
  have hcnt_le : ∀ p ∈ allPlayersInMatch cstar, qc p.id ≤ 2 :=
    fun p hp => hbd p (hmem_cs p hp)
  have hmax_le : listMax ((allPlayersInMatch cstar).map (fun p => qc p.id)) ≤ 2 := by
    apply listMax_le
    intro a ha
    rcases List.mem_map.mp ha with ⟨p, hp, rfl⟩
    exact hcnt_le p hp
  have hsum_le : ((allPlayersInMatch cstar).map (fun p => qc p.id)).sum ≤ 8 := by
    have hlen : ((allPlayersInMatch cstar).map (fun p => qc p.id)).length = 4 := by
      rcases cstar with ⟨⟨a, b⟩, ⟨u, v⟩⟩; rfl
    have hball : ∀ a ∈ (allPlayersInMatch cstar).map (fun p => qc p.id), a ≤ 2 := by
      intro a ha
      rcases List.mem_map.mp ha with ⟨p, hp, rfl⟩
      exact hcnt_le p hp
    have := listSum_le ((allPlayersInMatch cstar).map (fun p => qc p.id)) 2 hball
    omega
  omega

/-- Filtering an id list is filtering the player list. -/
lemma filter_map_id (l : List Player) (f : Nat → Bool) :
    (l.map Player.id).filter f = (l.filter (fun p => f p.id)).map Player.id := by
  induction l with
  | nil => rfl
  | cons p rest ih =>
    by_cases h : f p.id = true <;> simp [h, ih]

/-- When the selected candidate carries as many minimum-count players as
exist, it contains every minimum-count player (distinct ids). -/
lemma best_contains_all_min (ps : List Player) (qc : Nat → Nat) (cb : Candidate)
    (hnd : (ps.map Player.id).Nodup)
    (hmem : cb ∈ roundCandidates ps qc (currentMin ps qc))
    (hcnt : ((allPlayersInMatch cb).filter
      (fun p => qc p.id == currentMin ps qc)).length =
      nMinPlayers ps qc (currentMin ps qc)) :
    ∀ p ∈ ps, qc p.id = currentMin ps qc →
      p.id ∈ (allPlayersInMatch cb).map Player.id := by
  obtain ⟨g, hsub, hlen, hperm⟩ := roundCandidates_shape ps qc (currentMin ps qc) cb hmem
  have hbsub : ∀ i ∈ (allPlayersInMatch cb).map Player.id, i ∈ ps.map Player.id := by
    intro i hi
    exact (hsub.map Player.id).subset ((hperm.map Player.id).subset hi)
  have hbnodup : ((allPlayersInMatch cb).map Player.id).Nodup :=
    ((hperm.map Player.id).nodup_iff).mpr (hnd.sublist (hsub.map Player.id))
  have hbfcnt : (((allPlayersInMatch cb).map Player.id).filter
      (fun i => qc i == currentMin ps qc)).length =
      nMinPlayers ps qc (currentMin ps qc) := by
    rw [filter_map_id, List.length_map]
    exact hcnt
  have hmfcnt : ((ps.map Player.id).filter
      (fun i => qc i == currentMin ps qc)).length =
      nMinPlayers ps qc (currentMin ps qc) := by
    rw [filter_map_id, List.length_map]
    rfl
  have hbfnodup : (((allPlayersInMatch cb).map Player.id).filter
      (fun i => qc i == currentMin ps qc)).Nodup := hbnodup.filter _
  have hmfnodup : ((ps.map Player.id).filter
      (fun i => qc i == currentMin ps qc)).Nodup := hnd.filter _
  have hsubset : (((allPlayersInMatch cb).map Player.id).filter
      (fun i => qc i == currentMin ps qc)).toFinset ⊆
      ((ps.map Player.id).filter (fun i => qc i == currentMin ps qc)).toFinset := by
    intro i hi
    rw [List.mem_toFinset] at hi
    rw [List.mem_toFinset]
    rcases List.mem_filter.mp hi with ⟨hi1, hi2⟩
    exact List.mem_filter.mpr ⟨hbsub i hi1, hi2⟩
  have hcard1 : (((allPlayersInMatch cb).map Player.id).filter
      (fun i => qc i == currentMin ps qc)).toFinset.card =
      nMinPlayers ps qc (currentMin ps qc) := by
    rw [List.toFinset_card_of_nodup hbfnodup, hbfcnt]
  have hcard2 : ((ps.map Player.id).filter
      (fun i => qc i == currentMin ps qc)).toFinset.card =
      nMinPlayers ps qc (currentMin ps qc) := by
    rw [List.toFinset_card_of_nodup hmfnodup, hmfcnt]
  have heq := Finset.eq_of_subset_of_card_le hsubset (by omega)
  intro p hp hpmin
  have hpm : p.id ∈ (ps.map Player.id).filter (fun i => qc i == currentMin ps qc) :=
    List.mem_filter.mpr ⟨List.mem_map_of_mem _ hp, by simp [hpmin]⟩
  have hpm2 : p.id ∈ (((allPlayersInMatch cb).map Player.id).filter
      (fun i => qc i == currentMin ps qc)).toFinset := by
    rw [heq, List.mem_toFinset]
    exact hpm
  rw [List.mem_toFinset] at hpm2
  exact (List.mem_filter.mp hpm2).1

/-- One committed round preserves the two-consecutive-values shape of
the usage counters: every counter stays within one of the new minimum. -/
lemma round_preserves_inv (ps : List Player) (q : List Candidate) (qc : Nat → Nat)
    (t : Nat) (cb : Candidate)
    (h4 : 4 ≤ ps.length)
    (hnd : (ps.map Player.id).Nodup)
    (htgp : ∀ p ∈ ps, p.total_games_played = t)
    (hbd : ∀ p ∈ ps, qc p.id ≤ 2)
    (hInv : ∀ p ∈ ps, qc p.id ≤ currentMin ps qc + 1)
    (hrun : runRound ps (q.map candToGame) qc = some cb) :
    ∀ p ∈ ps, bump qc cb p.id ≤ currentMin ps (bump qc cb) + 1 := by
  have hps_ne : ps ≠ [] := by
    intro h
    rw [h] at h4
    simp at h4
  have hmcb := round_selects_max_min ps q qc t cb h4 htgp hbd hrun
  have hmem := (runRound_spec ps _ qc cb hrun).1
  have hbnodup : ((allPlayersInMatch cb).map Player.id).Nodup :=
    runRound_nodup ps _ qc hnd cb hrun
  have hcnt_le1 : ∀ x, ((allPlayersInMatch cb).map Player.id).count x ≤ 1 :=
    List.nodup_iff_count_le_one.mp hbnodup
  have hcnt0 : ∀ x, x ∉ (allPlayersInMatch cb).map Player.id →
      ((allPlayersInMatch cb).map Player.id).count x = 0 :=
    fun x hx => List.count_eq_zero.mpr hx
  have hcnt1 : ∀ x, x ∈ (allPlayersInMatch cb).map Player.id →
      1 ≤ ((allPlayersInMatch cb).map Player.id).count x :=
    fun x hx => List.one_le_count_iff.mpr hx
  -- members of cb at the minimum have their old count equal to the minimum
  have hmem_min : ∀ p ∈ ps, p.id ∈ (allPlayersInMatch cb).map Player.id →
      (∀ b ∈ allPlayersInMatch cb, qc b.id = currentMin ps qc) →
      qc p.id = currentMin ps qc := by
    intro p _ hpid hall
    rcases List.mem_map.mp hpid with ⟨b, hb, hbid⟩
    rw [← hbid]
    exact hall b hb
  by_cases hcase : 4 ≤ nMinPlayers ps qc (currentMin ps qc)
  · -- all four committed players were at the minimum
    have hm4 : ((allPlayersInMatch cb).filter
        (fun p => qc p.id == currentMin ps qc)).length = 4 := by omega
    have hlen4 : (allPlayersInMatch cb).length = 4 := by
      rcases cb with ⟨⟨a, b⟩, ⟨u, v⟩⟩; rfl
    have hfe : (allPlayersInMatch cb).filter
        (fun p => qc p.id == currentMin ps qc) = allPlayersInMatch cb :=
      (List.filter_sublist _).eq_of_length (by omega)
    have hall : ∀ b ∈ allPlayersInMatch cb, qc b.id = currentMin ps qc := by
      intro b hb
      have := List.filter_eq_self.mp hfe b hb
      simpa using this
    -- every new count is at most old minimum + 1
    have hpoint : ∀ p ∈ ps, bump qc cb p.id ≤ currentMin ps qc + 1 := by
      intro p hp
      rw [bump_eq]
      by_cases hin : p.id ∈ (allPlayersInMatch cb).map Player.id
      · have := hmem_min p hp hin hall
        have := hcnt_le1 p.id
        omega
      · have := hcnt0 p.id hin
        have := hInv p hp
        omega
    -- the new minimum is at least the old one
    obtain ⟨p0, hp0, hp0min⟩ := currentMin_attained ps (bump qc cb) hps_ne
    have hmin_ge : currentMin ps qc ≤ currentMin ps (bump qc cb) := by
      rw [hp0min, bump_eq]
      have := currentMin_le ps qc p0 hp0
      omega
    intro p hp
    have := hpoint p hp
    omega
  · -- cb contains every minimum-count player
    have hmeq : ((allPlayersInMatch cb).filter
        (fun p => qc p.id == currentMin ps qc)).length =
        nMinPlayers ps qc (currentMin ps qc) := by omega
    have hallmin := best_contains_all_min ps qc cb hnd hmem hmeq
    -- pointwise: new counts at most old minimum + 2
    have hpoint : ∀ p ∈ ps, bump qc cb p.id ≤ currentMin ps qc + 2 := by
      intro p hp
      rw [bump_eq]
      have := hInv p hp
      have := hcnt_le1 p.id
      omega
    -- the new minimum is at least the old minimum + 1
    obtain ⟨p0, hp0, hp0min⟩ := currentMin_attained ps (bump qc cb) hps_ne
    have hmin_ge : currentMin ps qc + 1 ≤ currentMin ps (bump qc cb) := by
      rw [hp0min, bump_eq]
      by_cases h0 : qc p0.id = currentMin ps qc
      · have hin := hallmin p0 hp0 h0
        have := hcnt1 p0.id hin
        omega
      · have := currentMin_le ps qc p0 hp0
        omega
    intro p hp
    have := hpoint p hp
    omega

/-- The two-consecutive-values invariant survives the whole round loop
over an empty base universe with equal lifetime totals. -/
lemma generateQueueAux_inv (ps : List Player) (t : Nat)
    (h4 : 4 ≤ ps.length) (hnd : (ps.map Player.id).Nodup)
    (htgp : ∀ p ∈ ps, p.total_games_played = t) :
    ∀ (fuel : Nat) (q : List Candidate) (qc : Nat → Nat),
      (∀ p ∈ ps, qc p.id + fuel ≤ 3) →
      (∀ p ∈ ps, qc p.id ≤ currentMin ps qc + 1) →
      ∀ p ∈ ps, (generateQueueAux ps [] fuel q qc).2 p.id ≤
        currentMin ps (generateQueueAux ps [] fuel q qc).2 + 1 := by
  intro fuel
  induction fuel with
  | zero => intro q qc _ hInv; exact hInv
  | succ f ih =>
    intro q qc hbd hInv
    simp only [generateQueueAux]
    obtain ⟨cb, hcb⟩ := runRound_isSome ps ([] ++ q.map candToGame) qc h4
    rw [hcb]
    have hcb' : runRound ps (q.map candToGame) qc = some cb := by
      simpa using hcb
    have hbnodup : ((allPlayersInMatch cb).map Player.id).Nodup :=
      runRound_nodup ps _ qc hnd cb hcb'
    refine ih (q ++ [cb]) (bump qc cb) ?_ ?_
    · intro p hp
      rw [bump_eq]
      have h1 := List.nodup_iff_count_le_one.mp hbnodup p.id
      have h2 := hbd p hp
      omega
    · exact round_preserves_inv ps q qc t cb h4 hnd htgp
        (fun p hp => by have := hbd p hp; omega) hInv hcb'

/-- The internal counters of the loop agree with the usage read off the
returned queue. -/
lemma generateQueueAux_counts (ps : List Player) (base : List GameRec) :
    ∀ (fuel : Nat) (q : List Candidate) (qc : Nat → Nat),
      (∀ x, qc x = usageOf q x) →
      ∀ x, (generateQueueAux ps base fuel q qc).2 x =
        usageOf (generateQueueAux ps base fuel q qc).1 x := by
  intro fuel
  induction fuel with
  | zero => intro q qc h; exact h
  | succ f ih =>
    intro q qc h
    simp only [generateQueueAux]
    cases hr : runRound ps (base ++ q.map candToGame) qc with
    | none => exact h
    | some cb =>
      refine ih (q ++ [cb]) (bump qc cb) ?_
      intro x
      rw [bump_eq, h x]
      simp [usageOf, List.map_append, List.sum_append]

/-- C4 amended: with at least four distinct-id active participants, an
empty historical and queued match universe, and equal lifetime totals, a
full-length queue leaves a usage spread of at most one. -/
theorem fairnessSpreadWithinOne (ps : List Player) (ag qg : List GameRec) (t : Nat)
    (h4 : 4 ≤ ps.length) (hnd : (ps.map Player.id).Nodup)
    (hag : ag = []) (hqg : qg = [])
    (htgp : ∀ p ∈ ps, p.total_games_played = t)
    (_hfull : (generateQueue ps ag qg).length = 3) :
    usageSpread ps (generateQueue ps ag qg) ≤ 1 := by
  subst hag
  subst hqg
  have hps_ne : ps ≠ [] := by
    intro h
    rw [h] at h4
    simp at h4
  have hq : generateQueue ps [] [] = (generateQueueAux ps [] 3 [] (fun _ => 0)).1 := by
    unfold generateQueue
    rw [if_neg (by omega)]
    rfl
  have hInv := generateQueueAux_inv ps t h4 hnd htgp 3 [] (fun _ => 0)
    (by intro p _; simp) (by intro p _; simp)
  have hcounts := generateQueueAux_counts ps [] 3 [] (fun _ => 0)
    (by intro x; simp [usageOf])
  rw [hq]
  unfold usageSpread
  have hmapeq : ps.map (fun p => usageOf (generateQueueAux ps [] 3 [] (fun _ => 0)).1 p.id) =
      ps.map (fun p => (generateQueueAux ps [] 3 [] (fun _ => 0)).2 p.id) := by
    apply List.map_congr_left
    intro p _
    rw [hcounts p.id]
  rw [hmapeq]
  have hne2 : ps.map (fun p => (generateQueueAux ps [] 3 [] (fun _ => 0)).2 p.id) ≠ [] := by
    simpa using hps_ne
  obtain ⟨vmax, hvmax⟩ :
      ∃ v ∈ ps.map (fun p => (generateQueueAux ps [] 3 [] (fun _ => 0)).2 p.id),
        listMax (ps.map (fun p => (generateQueueAux ps [] 3 [] (fun _ => 0)).2 p.id)) = v :=
    ⟨_, listMax_mem _ hne2, rfl⟩
  obtain ⟨hvmem, hveq⟩ := hvmax
  rcases List.mem_map.mp hvmem with ⟨p0, hp0, hp0eq⟩
  have hbound := hInv p0 hp0
  have hminle : currentMin ps (generateQueueAux ps [] 3 [] (fun _ => 0)).2 =
      listMin (ps.map (fun p => (generateQueueAux ps [] 3 [] (fun _ => 0)).2 p.id)) := rfl
  rw [hveq, ← hp0eq]
  omega

/-- C4 amended witness: the four equal players satisfy every hypothesis
and end with spread zero. -/
theorem fairnessSpreadWithinOneWitness :
    usageSpread fourEqualPlayers (generateQueue fourEqualPlayers [] []) ≤ 1 :=
  fairnessSpreadWithinOne fourEqualPlayers [] [] 0 (by decide) (by decide) rfl rfl
    (by decide) (by decide)

set_option maxRecDepth 100000 in
/-- C4 counterexample: eight distinct-id players with empty history
produce a full-length queue whose usage spread is 3, not at most 1:
player 1 plays in all three matches while player 8 plays in none. -/
theorem fairnessSpreadCounterexample :
    4 ≤ skewedPlayers.length ∧
    (skewedPlayers.map Player.id).Nodup ∧
    (generateQueue skewedPlayers [] []).length = 3 ∧
    skewedPlayers.map (fun p => usageOf (generateQueue skewedPlayers [] []) p.id) =
      [3, 2, 2, 2, 1, 1, 1, 0] ∧
    ¬(usageSpread skewedPlayers (generateQueue skewedPlayers [] []) ≤ 1) := by
  decide

end BadmintonQueue
